import Mathlib

/-!
# TaskManager (src/task_manager.cpp)

A shallow embedding of the `TaskManager` class: a rank index
(`std::map<Task,int> sortedTasks`, ordered by `Task::operator<`) coupled with an
identifier index (`std::unordered_map<int,Task> taskMap`).

Modelling decisions.

* C++ `int` values are only copied and compared by the program, never used in
  arithmetic, so they are embedded as `Int`.
* `std::map<K,V>` with comparator `lt` is embedded as an association list kept
  strictly increasing for `lt`.  Two keys are *equivalent* when neither is less
  than the other; `operator[]`-assignment keeps the key already stored when an
  equivalent key is present and only replaces the mapped value, exactly as the
  standard container does.
* `std::unordered_map<int,Task>` is a finite map whose iteration order is never
  observed by the program; it is embedded in canonical form, as the same kind of
  association list ordered by the integer key, whose key equivalence is equality.
-/

namespace TaskManager

/-! ## Associative containers -/

/-- Key equivalence induced by a comparator: neither key is less than the other. -/
def keyEquiv {K : Type} (lt : K → K → Bool) (a b : K) : Bool :=
  !lt a b && !lt b a

/-- Container `m[k] = v`: insert `(k, v)` at its ordered position, or, when an
equivalent key is already stored, keep that stored key and replace its value. -/
def mapAssign {K V : Type} (lt : K → K → Bool) : List (K × V) → K → V → List (K × V)
  | [], k, v => [(k, v)]
  | (k', v') :: rest, k, v =>
    if lt k k' then (k, v) :: (k', v') :: rest
    else if lt k' k then (k', v') :: mapAssign lt rest k v
    else (k', v) :: rest

/-- Container `m.erase(k)`: drop every entry whose key is equivalent to `k`. -/
def mapErase {K V : Type} (lt : K → K → Bool) (m : List (K × V)) (k : K) : List (K × V) :=
  m.filter (fun e => !keyEquiv lt k e.1)

/-- Container `m.find(k)`: the entry whose key is equivalent to `k`, if any. -/
def mapFind {K V : Type} (lt : K → K → Bool) (m : List (K × V)) (k : K) : Option (K × V) :=
  m.find? (fun e => keyEquiv lt k e.1)

/-- Comparator of the identifier index: keys are plain integers. -/
def intLt (a b : Int) : Bool := decide (a < b)

/-! ## The data model -/

/-- Record `struct Task`. -/
structure Task where
  userId : Int
  taskId : Int
  priority : Int
deriving DecidableEq, Repr

/-- Source `Task::operator<`: higher priority first, then higher task id first. -/
def Task.lt (a b : Task) : Bool :=
  if a.priority ≠ b.priority then decide (a.priority > b.priority)
  else decide (a.taskId > b.taskId)

/-- The two private members of `class TaskManager`. -/
structure Store where
  sortedTasks : List (Task × Int)
  taskMap : List (Int × Task)
deriving DecidableEq, Repr

/-- A store with both containers default-constructed. -/
def Store.empty : Store := ⟨[], []⟩

/-! ## The operations -/

/-- Source `TaskManager::add`. -/
def add (s : Store) (userId taskId priority : Int) : Store :=
  let task : Task := ⟨userId, taskId, priority⟩
  { sortedTasks := mapAssign Task.lt s.sortedTasks task userId
    taskMap := mapAssign intLt s.taskMap taskId task }

/-- Source `TaskManager::edit`. -/
def edit (s : Store) (taskId newPriority : Int) : Store :=
  match mapFind intLt s.taskMap taskId with
  | none => s
  | some it =>
    let task : Task := it.2
    let erased := mapErase Task.lt s.sortedTasks task
    let task' : Task := { task with priority := newPriority }
    { sortedTasks := mapAssign Task.lt erased task' task'.userId
      taskMap := mapAssign intLt s.taskMap taskId task' }

/-- Source `TaskManager::rmv`. -/
def rmv (s : Store) (taskId : Int) : Store :=
  match mapFind intLt s.taskMap taskId with
  | none => s
  | some it =>
    let task : Task := it.2
    { sortedTasks := mapErase Task.lt s.sortedTasks task
      taskMap := mapErase intLt s.taskMap taskId }

/-- Source `TaskManager::execTop`: the returned integer and the store afterwards. -/
def execTop (s : Store) : Int × Store :=
  match s.sortedTasks with
  | [] => (-1, s)
  | (top, _) :: rest =>
    (top.userId, { sortedTasks := rest, taskMap := mapErase intLt s.taskMap top.taskId })

/-- Source constructor `TaskManager(vector<vector<int>>&)`, on rows given as
triples `(userId, taskId, priority)`: the constructor reads exactly the entries
`0`, `1`, `2` of every row. -/
def construct (tasks : List (Int × Int × Int)) : Store :=
  tasks.foldl (fun s task => add s task.1 task.2.1 task.2.2) Store.empty

/-- One row of the constructor argument, read as the source reads it
(`task[0]`, `task[1]`, `task[2]`); a row shorter than three has no reading. -/
def rowTriple : List Int → Option (Int × Int × Int)
  | u :: t :: p :: _ => some (u, t, p)
  | _ => none

/-- The constructor on raw rows: defined when every row has three entries. -/
def constructRows (rows : List (List Int)) : Option Store :=
  (rows.mapM rowTriple).map construct

/-! ## Call sequences -/

/-- A call of one public member function. -/
inductive Op where
  | add (userId taskId priority : Int)
  | edit (taskId newPriority : Int)
  | rmv (taskId : Int)
  | execTop
deriving DecidableEq, Repr

/-- The store after one call. -/
def step (s : Store) : Op → Store
  | .add u t p => add s u t p
  | .edit t p => edit s t p
  | .rmv t => rmv s t
  | .execTop => (execTop s).2

/-- The store after a sequence of calls. -/
def run (s : Store) (ops : List Op) : Store :=
  ops.foldl step s

/-- A store is reachable when the constructor followed by some sequence of
calls produces it. -/
def Reachable (s : Store) : Prop :=
  ∃ (init : List (Int × Int × Int)) (ops : List Op), s = run (construct init) ops

/-- Repeated `execTop`: the returned integers, in call order, and the final store. -/
def execTopN : Nat → Store → List Int × Store
  | 0, s => ([], s)
  | n + 1, s =>
    let r := execTop s
    let rs := execTopN n r.2
    (r.1 :: rs.1, rs.2)

/-- Task ids occurring among the keys of the rank index. -/
def rankIds (s : Store) : List Int :=
  s.sortedTasks.map (fun e => e.1.taskId)

/-- Keys of the identifier index. -/
def mapIds (s : Store) : List Int :=
  s.taskMap.map Prod.fst

/-- The task record built from a constructor row. -/
def toTask (x : Int × Int × Int) : Task := ⟨x.1, x.2.1, x.2.2⟩

/-- Rank order in the words of the specification: `a` ranks before `b` when its
priority is greater, or the priorities are equal and its task id is greater. -/
def ranksBefore (a b : Task) : Prop :=
  a.priority > b.priority ∨ (a.priority = b.priority ∧ a.taskId > b.taskId)

instance (a b : Task) : Decidable (ranksBefore a b) := by
  unfold ranksBefore; infer_instance

/-! ## Predicates used by the statements -/

/-- Laws of a strict weak ordering, for a boolean comparator. -/
structure StrictWeak {K : Type} (lt : K → K → Bool) : Prop where
  irrefl : ∀ a, lt a a = false
  trans : ∀ a b c, lt a b = true → lt b c = true → lt a c = true
  equiv_lt : ∀ a b c, lt a b = false → lt b a = false → lt b c = true → lt a c = true

/-- Container invariant: the keys are strictly increasing for the comparator. -/
def Sorted {K V : Type} (lt : K → K → Bool) (m : List (K × V)) : Prop :=
  m.Pairwise (fun e f => lt e.1 f.1 = true)

/-- The key under which `m[k] = v` stores the value: the equivalent key already
present, or `k` itself when there is none. -/
def storedKey {K V : Type} (lt : K → K → Bool) (m : List (K × V)) (k : K) : K :=
  match mapFind lt m k with
  | some f => f.1
  | none => k

/-- Both containers satisfy their ordering invariant. -/
def WF (s : Store) : Prop :=
  Sorted Task.lt s.sortedTasks ∧ Sorted intLt s.taskMap

/-- Every record of the identifier index is filed under its own task id and has
a rank-index entry with the same task id and priority. -/
def Linked (s : Store) : Prop :=
  ∀ e ∈ s.taskMap, e.2.taskId = e.1 ∧ ∃ f ∈ s.sortedTasks, keyEquiv Task.lt e.2 f.1 = true

/-- The store holds exactly the tasks `ts`: the rank index has one entry
`(x, x.userId)` per task and the identifier index one entry `(x.taskId, x)`. -/
def Represents (s : Store) (ts : List Task) : Prop :=
  WF s ∧ (∀ e, e ∈ s.sortedTasks ↔ ∃ x ∈ ts, e = (x, x.userId)) ∧
    (∀ e, e ∈ s.taskMap ↔ ∃ x ∈ ts, e = (x.taskId, x))

/-- Exactly one of the two tasks ranks strictly before the other. -/
def strictlyOrdered (a b : Task) : Prop :=
  (Task.lt a b = true ∧ Task.lt b a = false) ∨ (Task.lt a b = false ∧ Task.lt b a = true)

instance (a b : Task) : Decidable (strictlyOrdered a b) := by
  unfold strictlyOrdered; infer_instance

/-- The task record `a` is present in the store: it is a key of the rank index or
a record of the identifier index. -/
def holdsTask (s : Store) (a : Task) : Prop :=
  a ∈ s.sortedTasks.map Prod.fst ∨ a ∈ s.taskMap.map Prod.snd

instance (s : Store) (a : Task) : Decidable (holdsTask s a) := by
  unfold holdsTask; infer_instance

/-- The task list after the priority of task `t` is replaced by `p`. -/
def reprioritise (t p : Int) (ts : List Task) : List Task :=
  ts.map (fun x => if x.taskId = t then { x with priority := p } else x)

/-- What one call returns: the integer of `execTop`, nothing for the `void` members. -/
def stepResult (s : Store) : Op → Option Int
  | .execTop => some (execTop s).1
  | _ => none

/-- What the calls of a sequence return, in call order. -/
def results : Store → List Op → List (Option Int)
  | _, [] => []
  | s, op :: ops => stepResult s op :: results (step s op) ops

/-- Guard on one call: an `add` is made with a task id that is not a key of the
identifier index at the time of the call; the other calls are unrestricted. -/
def addIsFresh (s : Store) : Op → Prop
  | .add _ t _ => t ∉ mapIds s
  | _ => True

instance (s : Store) (op : Op) : Decidable (addIsFresh s op) := by
  cases op <;> unfold addIsFresh <;> infer_instance

/-- Guard on a call sequence run from `s`: every `add` in it is fresh when made. -/
def freshAdds : Store → List Op → Prop
  | _, [] => True
  | s, op :: ops => addIsFresh s op ∧ freshAdds (step s op) ops

instance decFreshAdds : (s : Store) → (ops : List Op) → Decidable (freshAdds s ops)
  | _, [] => isTrue trivial
  | s, op :: ops =>
    match decFreshAdds (step s op) ops with
    | isTrue h2 =>
      if h1 : addIsFresh s op then isTrue ⟨h1, h2⟩ else isFalse (fun c => h1 c.1)
    | isFalse h2 => isFalse (fun c => h2 c.2)

/-- The two indices hold the same task records: the keys of the rank index are,
up to order, the records of the identifier index, with one rank entry and one
identifier entry per task id, every record filed under its own task id, and every
rank entry mapped to the userId of its key. -/
def Consistent (s : Store) : Prop :=
  (s.sortedTasks.map Prod.fst).Perm (s.taskMap.map Prod.snd) ∧
  (rankIds s).Nodup ∧ (mapIds s).Nodup ∧
  (∀ e ∈ s.taskMap, e.2.taskId = e.1) ∧
  (∀ e ∈ s.sortedTasks, e.2 = e.1.userId)

/-- The userId passed by a call is non-negative (only `add` passes one). -/
def Op.ownerNonneg : Op → Prop
  | .add u _ _ => 0 ≤ u
  | _ => True

/-- Every userId held by the store, in either index, is non-negative. -/
def OwnersNonneg (s : Store) : Prop :=
  (∀ e ∈ s.sortedTasks, 0 ≤ e.1.userId) ∧ (∀ e ∈ s.taskMap, 0 ≤ e.2.userId)

/-! ## Comparator laws -/

theorem keyEquiv_intLt (a b : Int) : keyEquiv intLt a b = true ↔ a = b := by
  simp only [keyEquiv, intLt, Bool.and_eq_true, Bool.not_eq_true', decide_eq_false_iff_not]
  omega

theorem keyEquiv_intLt_false (a b : Int) : keyEquiv intLt a b = false ↔ b ≠ a := by
  rw [← Bool.not_eq_true, keyEquiv_intLt]
  constructor <;> intro h c <;> exact h c.symm

theorem strictWeak_intLt : StrictWeak intLt where
  irrefl a := by simp [intLt]
  trans a b c := by simp only [intLt, decide_eq_true_eq]; omega
  equiv_lt a b c := by
    simp only [intLt, decide_eq_true_eq, decide_eq_false_iff_not]; omega

theorem taskLt_iff (a b : Task) : Task.lt a b = true ↔ ranksBefore a b := by
  unfold Task.lt ranksBefore
  by_cases h : a.priority = b.priority
  · simp [h]
  · simp only [ne_eq, h, not_false_eq_true, if_true, decide_eq_true_eq, false_and, or_false]

theorem taskLt_false_iff (a b : Task) : Task.lt a b = false ↔ ¬ ranksBefore a b := by
  rw [← taskLt_iff, Bool.not_eq_true]

theorem keyEquiv_taskLt (a b : Task) :
    keyEquiv Task.lt a b = true ↔ a.priority = b.priority ∧ a.taskId = b.taskId := by
  simp only [keyEquiv, Bool.and_eq_true, Bool.not_eq_true', taskLt_false_iff, ranksBefore]
  omega

theorem keyEquiv_taskLt_false (a b : Task) :
    keyEquiv Task.lt a b = false ↔ ¬ (a.priority = b.priority ∧ a.taskId = b.taskId) := by
  rw [← keyEquiv_taskLt, Bool.not_eq_true]

theorem strictWeak_taskLt : StrictWeak Task.lt where
  irrefl a := by rw [taskLt_false_iff]; unfold ranksBefore; omega
  trans a b c := by simp only [taskLt_iff, ranksBefore]; omega
  equiv_lt a b c := by simp only [taskLt_iff, taskLt_false_iff, ranksBefore]; omega

/-! ## Container lemmas -/

theorem keyEquiv_self {K : Type} {lt : K → K → Bool} (h : StrictWeak lt) (k : K) :
    keyEquiv lt k k = true := by
  simp [keyEquiv, h.irrefl]

theorem keyEquiv_false_of_lt {K : Type} {lt : K → K → Bool} {a b : K}
    (h : lt a b = true) : keyEquiv lt a b = false := by
  simp [keyEquiv, h]

theorem keyEquiv_false_of_gt {K : Type} {lt : K → K → Bool} {a b : K}
    (h : lt b a = true) : keyEquiv lt a b = false := by
  simp [keyEquiv, h]

theorem mem_mapErase {K V : Type} (lt : K → K → Bool) (m : List (K × V)) (k : K)
    (e : K × V) : e ∈ mapErase lt m k ↔ e ∈ m ∧ keyEquiv lt k e.1 = false := by
  simp [mapErase, List.mem_filter]

theorem sorted_mapErase {K V : Type} (lt : K → K → Bool) (m : List (K × V)) (k : K)
    (hs : Sorted lt m) : Sorted lt (mapErase lt m k) :=
  List.Pairwise.filter _ hs

theorem mapFind_some {K V : Type} {lt : K → K → Bool} {m : List (K × V)} {k : K}
    {f : K × V} (h : mapFind lt m k = some f) : f ∈ m ∧ keyEquiv lt k f.1 = true := by
  unfold mapFind at h
  exact ⟨List.mem_of_find?_eq_some h, by simpa using List.find?_some h⟩

theorem mapFind_none {K V : Type} {lt : K → K → Bool} {m : List (K × V)} {k : K} :
    mapFind lt m k = none ↔ ∀ e ∈ m, keyEquiv lt k e.1 = false := by
  simp [mapFind, List.find?_eq_none]

theorem mapFind_of_mem {K V : Type} {lt : K → K → Bool} (h : StrictWeak lt)
    {m : List (K × V)} (hs : Sorted lt m) {k : K} {f : K × V} (hf : f ∈ m)
    (he : keyEquiv lt k f.1 = true) : mapFind lt m k = some f := by
  induction m with
  | nil => cases hf
  | cons x rest ih =>
    have hx := List.pairwise_cons.mp hs
    by_cases hk : keyEquiv lt k x.1 = true
    · have hfx : f = x := by
        rcases List.mem_cons.mp hf with rfl | hr
        · rfl
        · exfalso
          have h1 : lt x.1 f.1 = true := hx.1 f hr
          simp only [keyEquiv, Bool.and_eq_true, Bool.not_eq_true'] at hk he
          have h2 := h.equiv_lt k x.1 f.1 hk.1 hk.2 h1
          rw [he.1] at h2
          cases h2
      subst hfx
      simp [mapFind, List.find?_cons, hk]
    · have hne : f ≠ x := fun c => hk (c ▸ he)
      have hr : f ∈ rest := by
        rcases List.mem_cons.mp hf with c | hr
        · exact absurd c hne
        · exact hr
      have := ih hx.2 hr
      simp only [mapFind, List.find?_cons] at this ⊢
      simp only [Bool.not_eq_true] at hk
      rw [hk]
      exact this

theorem storedKey_cases {K V : Type} (lt : K → K → Bool) (m : List (K × V)) (k : K) :
    (mapFind lt m k = none ∧ storedKey lt m k = k) ∨
      ∃ f, mapFind lt m k = some f ∧ storedKey lt m k = f.1 := by
  unfold storedKey
  cases hm : mapFind lt m k with
  | none => exact Or.inl ⟨rfl, rfl⟩
  | some f => exact Or.inr ⟨f, rfl, rfl⟩

theorem keyEquiv_storedKey {K V : Type} {lt : K → K → Bool} (h : StrictWeak lt)
    (m : List (K × V)) (k : K) : keyEquiv lt k (storedKey lt m k) = true := by
  rcases storedKey_cases lt m k with ⟨_, h2⟩ | ⟨f, h1, h2⟩
  · rw [h2]; exact keyEquiv_self h k
  · rw [h2]; exact (mapFind_some h1).2

/-- Entries of `m[k] = v` when no stored key is equivalent to `k`. -/
theorem mem_mapAssign_fresh {K V : Type} (lt : K → K → Bool) (m : List (K × V)) (k : K)
    (v : V) (hfresh : ∀ e ∈ m, keyEquiv lt k e.1 = false) (e : K × V) :
    e ∈ mapAssign lt m k v ↔ e = (k, v) ∨ e ∈ m := by
  induction m with
  | nil => simp [mapAssign]
  | cons x rest ih =>
    obtain ⟨k', v'⟩ := x
    have hx := hfresh (k', v') (List.mem_cons_self _ _)
    have hr : ∀ e ∈ rest, keyEquiv lt k e.1 = false :=
      fun e he => hfresh e (List.mem_cons_of_mem _ he)
    simp only [mapAssign]
    by_cases h1 : lt k k' = true
    · rw [if_pos h1]
      simp
    · by_cases h2 : lt k' k = true
      · rw [if_neg h1, if_pos h2]
        simp only [List.mem_cons, ih hr]
        tauto
      · exfalso
        simp [keyEquiv, h1, h2] at hx

/-- Entries of `m[k] = v` in a well-formed container. -/
theorem mem_mapAssign {K V : Type} {lt : K → K → Bool} (h : StrictWeak lt)
    (m : List (K × V)) (hs : Sorted lt m) (k : K) (v : V) (e : K × V) :
    e ∈ mapAssign lt m k v ↔
      e = (storedKey lt m k, v) ∨ (e ∈ m ∧ keyEquiv lt k e.1 = false) := by
  rcases storedKey_cases lt m k with ⟨h1, h2⟩ | ⟨f, h1, h2⟩
  · rw [h2, mem_mapAssign_fresh lt m k v (mapFind_none.mp h1)]
    constructor
    · rintro (c | c)
      · exact Or.inl c
      · exact Or.inr ⟨c, mapFind_none.mp h1 e c⟩
    · rintro (c | c)
      · exact Or.inl c
      · exact Or.inr c.1
  · rw [h2]
    clear h2
    induction m with
    | nil => simp [mapFind] at h1
    | cons x rest ih =>
      obtain ⟨k', v'⟩ := x
      have hx := List.pairwise_cons.mp hs
      have hf := mapFind_some h1
      simp only [mapAssign]
      by_cases c1 : lt k k' = true
      · exfalso
        have : keyEquiv lt k f.1 = false := by
          rcases List.mem_cons.mp hf.1 with hr | hr
          · rw [hr]; exact keyEquiv_false_of_lt c1
          · exact keyEquiv_false_of_lt (h.trans _ _ _ c1 (hx.1 f hr))
        rw [this] at hf
        cases hf.2
      · by_cases c2 : lt k' k = true
        · have hk : keyEquiv lt k k' = false := keyEquiv_false_of_gt c2
          have h1r : mapFind lt rest k = some f := by
            simpa [mapFind, List.find?_cons, hk] using h1
          rw [if_neg c1, if_pos c2]
          simp only [List.mem_cons, ih hx.2 h1r]
          constructor
          · rintro (c | c | c)
            · exact Or.inr ⟨Or.inl c, by rw [c]; exact hk⟩
            · exact Or.inl c
            · exact Or.inr ⟨Or.inr c.1, c.2⟩
          · rintro (c | ⟨c | c, d⟩)
            · exact Or.inr (Or.inl c)
            · exact Or.inl c
            · exact Or.inr (Or.inr ⟨c, d⟩)
        · rw [if_neg c1, if_neg c2]
          simp only [Bool.not_eq_true] at c1 c2
          have hk : keyEquiv lt k k' = true := by simp [keyEquiv, c1, c2]
          have hfk : f = (k', v') := by
            have : mapFind lt ((k', v') :: rest) k = some (k', v') := by
              simp [mapFind, List.find?_cons, hk]
            rw [this] at h1
            exact (Option.some.inj h1).symm
          subst hfk
          simp only [List.mem_cons]
          constructor
          · rintro (c | c)
            · exact Or.inl c
            · exact Or.inr ⟨Or.inr c,
                keyEquiv_false_of_lt (h.equiv_lt _ _ _ c1 c2 (hx.1 e c))⟩
          · rintro (c | ⟨c | c, d⟩)
            · exact Or.inl c
            · rw [c, hk] at d; cases d
            · exact Or.inr c

theorem sorted_mapAssign {K V : Type} {lt : K → K → Bool} (h : StrictWeak lt)
    (m : List (K × V)) (hs : Sorted lt m) (k : K) (v : V) :
    Sorted lt (mapAssign lt m k v) := by
  induction m with
  | nil => simp [mapAssign, Sorted]
  | cons x rest ih =>
    obtain ⟨k', v'⟩ := x
    have hx := List.pairwise_cons.mp hs
    simp only [mapAssign]
    by_cases c1 : lt k k' = true
    · rw [if_pos c1]
      refine List.pairwise_cons.mpr ⟨?_, hs⟩
      intro e he
      rcases List.mem_cons.mp he with rfl | hr
      · exact c1
      · exact h.trans _ _ _ c1 (hx.1 e hr)
    · by_cases c2 : lt k' k = true
      · rw [if_neg c1, if_pos c2]
        refine List.pairwise_cons.mpr ⟨?_, ih hx.2⟩
        intro e he
        rcases (mem_mapAssign h rest hx.2 k v e).mp he with c | c
        · rw [c]
          rcases storedKey_cases lt rest k with ⟨_, h2⟩ | ⟨f, h1, h2⟩
          · simp only [h2]; exact c2
          · simp only [h2]; exact hx.1 f (mapFind_some h1).1
        · exact hx.1 e c.1
      · rw [if_neg c1, if_neg c2]
        refine List.pairwise_cons.mpr ⟨?_, hx.2⟩
        intro e he
        exact hx.1 e he

theorem mem_mapAssign_int (m : List (Int × Task)) (hs : Sorted intLt m) (t : Int)
    (v : Task) (e : Int × Task) :
    e ∈ mapAssign intLt m t v ↔ e = (t, v) ∨ (e ∈ m ∧ e.1 ≠ t) := by
  have hk : storedKey intLt m t = t :=
    ((keyEquiv_intLt _ _).mp (keyEquiv_storedKey strictWeak_intLt m t)).symm
  rw [mem_mapAssign strictWeak_intLt m hs, hk, keyEquiv_intLt_false]

theorem mem_mapErase_int (m : List (Int × Task)) (t : Int) (e : Int × Task) :
    e ∈ mapErase intLt m t ↔ e ∈ m ∧ e.1 ≠ t := by
  rw [mem_mapErase, keyEquiv_intLt_false]

theorem exists_equiv_mapAssign {K V : Type} {lt : K → K → Bool} (h : StrictWeak lt)
    (m : List (K × V)) (hs : Sorted lt m) (k : K) (v : V) :
    ∃ f ∈ mapAssign lt m k v, keyEquiv lt k f.1 = true :=
  ⟨(storedKey lt m k, v), (mem_mapAssign h m hs k v _).mpr (Or.inl rfl),
    keyEquiv_storedKey h m k⟩

theorem key_kept_mapAssign {K V : Type} {lt : K → K → Bool} (h : StrictWeak lt)
    (m : List (K × V)) (hs : Sorted lt m) (k : K) (v : V) (f : K × V) (hf : f ∈ m) :
    ∃ g ∈ mapAssign lt m k v, g.1 = f.1 := by
  cases hk : keyEquiv lt k f.1 with
  | false => exact ⟨f, (mem_mapAssign h m hs k v f).mpr (Or.inr ⟨hf, hk⟩), rfl⟩
  | true =>
    refine ⟨(storedKey lt m k, v), (mem_mapAssign h m hs k v _).mpr (Or.inl rfl), ?_⟩
    simp [storedKey, mapFind_of_mem h hs hf hk]

/-! ## Invariants of every reachable store -/

theorem edit_of_none {s : Store} {t : Int} (p : Int)
    (h : mapFind intLt s.taskMap t = none) : edit s t p = s := by
  simp [edit, h]

theorem edit_of_some {s : Store} {t : Int} (p : Int) {it : Int × Task}
    (h : mapFind intLt s.taskMap t = some it) :
    edit s t p =
      { sortedTasks := mapAssign Task.lt (mapErase Task.lt s.sortedTasks it.2)
          { it.2 with priority := p } it.2.userId
        taskMap := mapAssign intLt s.taskMap t { it.2 with priority := p } } := by
  simp [edit, h]

theorem rmv_of_none {s : Store} {t : Int}
    (h : mapFind intLt s.taskMap t = none) : rmv s t = s := by
  simp [rmv, h]

theorem rmv_of_some {s : Store} {t : Int} {it : Int × Task}
    (h : mapFind intLt s.taskMap t = some it) :
    rmv s t =
      { sortedTasks := mapErase Task.lt s.sortedTasks it.2
        taskMap := mapErase intLt s.taskMap t } := by
  simp [rmv, h]

theorem execTop_of_nil {s : Store} (h : s.sortedTasks = []) : execTop s = (-1, s) := by
  simp [execTop, h]

theorem execTop_of_cons {s : Store} {top : Task} {v : Int} {rest : List (Task × Int)}
    (h : s.sortedTasks = (top, v) :: rest) :
    execTop s =
      (top.userId, { sortedTasks := rest, taskMap := mapErase intLt s.taskMap top.taskId }) := by
  simp [execTop, h]

theorem wf_empty : WF Store.empty := by
  simp [WF, Sorted, Store.empty]

theorem wf_add {s : Store} (h : WF s) (u t p : Int) : WF (add s u t p) :=
  ⟨sorted_mapAssign strictWeak_taskLt _ h.1 _ _, sorted_mapAssign strictWeak_intLt _ h.2 _ _⟩

theorem wf_edit {s : Store} (h : WF s) (t p : Int) : WF (edit s t p) := by
  cases hf : mapFind intLt s.taskMap t with
  | none => rw [edit_of_none p hf]; exact h
  | some it =>
    rw [edit_of_some p hf]
    exact ⟨sorted_mapAssign strictWeak_taskLt _ (sorted_mapErase _ _ _ h.1) _ _,
      sorted_mapAssign strictWeak_intLt _ h.2 _ _⟩

theorem wf_rmv {s : Store} (h : WF s) (t : Int) : WF (rmv s t) := by
  cases hf : mapFind intLt s.taskMap t with
  | none => rw [rmv_of_none hf]; exact h
  | some it =>
    rw [rmv_of_some hf]
    exact ⟨sorted_mapErase _ _ _ h.1, sorted_mapErase _ _ _ h.2⟩

theorem wf_execTop {s : Store} (h : WF s) : WF (execTop s).2 := by
  cases hs : s.sortedTasks with
  | nil => rw [execTop_of_nil hs]; exact h
  | cons x rest =>
    obtain ⟨top, v⟩ := x
    rw [execTop_of_cons hs]
    have h1 := h.1
    unfold Sorted at h1
    rw [hs] at h1
    exact ⟨(List.pairwise_cons.mp h1).2, sorted_mapErase _ _ _ h.2⟩

theorem wf_step {s : Store} (h : WF s) (op : Op) : WF (step s op) := by
  cases op with
  | add u t p => exact wf_add h u t p
  | edit t p => exact wf_edit h t p
  | rmv t => exact wf_rmv h t
  | execTop => exact wf_execTop h

theorem linked_empty : Linked Store.empty := by
  intro e he
  simp [Store.empty] at he

theorem linked_add {s : Store} (hw : WF s) (h : Linked s) (u t p : Int) :
    Linked (add s u t p) := by
  intro e he
  simp only [add] at he ⊢
  rcases (mem_mapAssign_int _ hw.2 _ _ _).mp he with c | c
  · rw [c]
    exact ⟨rfl, exists_equiv_mapAssign strictWeak_taskLt _ hw.1 _ _⟩
  · obtain ⟨h1, f, hf, hfe⟩ := h e c.1
    obtain ⟨g, hg, hgf⟩ := key_kept_mapAssign strictWeak_taskLt _ hw.1 ⟨u, t, p⟩ u f hf
    exact ⟨h1, g, hg, by rw [hgf]; exact hfe⟩

theorem linked_edit {s : Store} (hw : WF s) (h : Linked s) (t p : Int) :
    Linked (edit s t p) := by
  cases hfind : mapFind intLt s.taskMap t with
  | none => rw [edit_of_none p hfind]; exact h
  | some it =>
    rw [edit_of_some p hfind]
    have hit := mapFind_some hfind
    have hit1 : it.1 = t := ((keyEquiv_intLt _ _).mp hit.2).symm
    have hit2 : it.2.taskId = t := by rw [(h it hit.1).1, hit1]
    have hse := sorted_mapErase Task.lt s.sortedTasks it.2 hw.1
    intro e he
    simp only at he ⊢
    rcases (mem_mapAssign_int _ hw.2 _ _ _).mp he with c | c
    · rw [c]
      exact ⟨hit2, exists_equiv_mapAssign strictWeak_taskLt _ hse _ _⟩
    · obtain ⟨h1, f, hf, hfe⟩ := h e c.1
      have hfe2 := (keyEquiv_taskLt _ _).mp hfe
      have hf2 : f ∈ mapErase Task.lt s.sortedTasks it.2 := by
        rw [mem_mapErase, keyEquiv_taskLt_false]
        refine ⟨hf, fun hc => c.2 ?_⟩
        rw [← h1, hfe2.2, ← hc.2, hit2]
      obtain ⟨g, hg, hgf⟩ := key_kept_mapAssign strictWeak_taskLt _ hse
        { it.2 with priority := p } it.2.userId f hf2
      exact ⟨h1, g, hg, by rw [hgf]; exact hfe⟩

theorem linked_rmv {s : Store} (h : Linked s) (t : Int) : Linked (rmv s t) := by
  cases hfind : mapFind intLt s.taskMap t with
  | none => rw [rmv_of_none hfind]; exact h
  | some it =>
    rw [rmv_of_some hfind]
    have hit := mapFind_some hfind
    have hit1 : it.1 = t := ((keyEquiv_intLt _ _).mp hit.2).symm
    have hit2 : it.2.taskId = t := by rw [(h it hit.1).1, hit1]
    intro e he
    simp only at he ⊢
    have c := (mem_mapErase_int _ _ _).mp he
    obtain ⟨h1, f, hf, hfe⟩ := h e c.1
    have hfe2 := (keyEquiv_taskLt _ _).mp hfe
    refine ⟨h1, f, ?_, hfe⟩
    rw [mem_mapErase, keyEquiv_taskLt_false]
    refine ⟨hf, fun hc => c.2 ?_⟩
    rw [← h1, hfe2.2, ← hc.2, hit2]

theorem linked_execTop {s : Store} (h : Linked s) : Linked (execTop s).2 := by
  cases hs : s.sortedTasks with
  | nil => rw [execTop_of_nil hs]; exact h
  | cons x rest =>
    obtain ⟨top, v⟩ := x
    rw [execTop_of_cons hs]
    intro e he
    simp only at he ⊢
    have c := (mem_mapErase_int _ _ _).mp he
    obtain ⟨h1, f, hf, hfe⟩ := h e c.1
    have hfe2 := (keyEquiv_taskLt _ _).mp hfe
    refine ⟨h1, f, ?_, hfe⟩
    rw [hs] at hf
    rcases List.mem_cons.mp hf with d | d
    · exfalso
      apply c.2
      rw [← h1, hfe2.2, d]
    · exact d

theorem linked_step {s : Store} (hw : WF s) (h : Linked s) (op : Op) :
    Linked (step s op) := by
  cases op with
  | add u t p => exact linked_add hw h u t p
  | edit t p => exact linked_edit hw h t p
  | rmv t => exact linked_rmv h t
  | execTop => exact linked_execTop h

theorem inv_run (ops : List Op) :
    ∀ s : Store, WF s → Linked s → WF (run s ops) ∧ Linked (run s ops) := by
  induction ops with
  | nil => intro s hw hl; exact ⟨hw, hl⟩
  | cons op ops ih =>
    intro s hw hl
    exact ih (step s op) (wf_step hw op) (linked_step hw hl op)

theorem construct_eq_run (init : List (Int × Int × Int)) :
    construct init = run Store.empty (init.map (fun x => Op.add x.1 x.2.1 x.2.2)) := by
  unfold construct run
  rw [List.foldl_map]
  rfl

theorem mapM_rowTriple (tasks : List (Int × Int × Int)) :
    (tasks.map (fun x => [x.1, x.2.1, x.2.2])).mapM rowTriple = some tasks := by
  induction tasks with
  | nil => rfl
  | cons x rest ih =>
    simp only [List.map_cons, List.mapM_cons, ih, rowTriple]
    rfl

/-- On rows of exactly three entries the constructor is `construct` on the triples. -/
theorem constructRows_triples (tasks : List (Int × Int × Int)) :
    constructRows (tasks.map (fun x => [x.1, x.2.1, x.2.2])) = some (construct tasks) := by
  unfold constructRows
  rw [mapM_rowTriple]
  rfl

theorem inv_construct (init : List (Int × Int × Int)) :
    WF (construct init) ∧ Linked (construct init) := by
  rw [construct_eq_run]
  exact inv_run _ _ wf_empty linked_empty

theorem inv_of_reachable {s : Store} (h : Reachable s) : WF s ∧ Linked s := by
  obtain ⟨init, ops, rfl⟩ := h
  exact inv_run ops _ (inv_construct init).1 (inv_construct init).2

/-! ## Stores holding a list of tasks with pairwise distinct ids -/

theorem represents_empty : Represents Store.empty [] := by
  refine ⟨wf_empty, ?_, ?_⟩ <;> intro e <;> simp [Store.empty]

theorem represents_add_fresh {s : Store} {ts : List Task} (h : Represents s ts)
    (u t p : Int) (hfresh : ∀ x ∈ ts, x.taskId ≠ t) :
    Represents (add s u t p) (ts ++ [⟨u, t, p⟩]) := by
  obtain ⟨hw, hr, hm⟩ := h
  refine ⟨wf_add hw u t p, ?_, ?_⟩
  · intro e
    have hf : ∀ f ∈ s.sortedTasks, keyEquiv Task.lt ⟨u, t, p⟩ f.1 = false := by
      intro f hf
      obtain ⟨x, hx, rfl⟩ := (hr f).mp hf
      rw [keyEquiv_taskLt_false]
      exact fun c => hfresh x hx c.2.symm
    simp only [add]
    rw [mem_mapAssign_fresh Task.lt _ _ _ hf, hr e]
    simp only [List.mem_append, List.mem_singleton]
    constructor
    · rintro (c | ⟨x, hx, c⟩)
      · exact ⟨⟨u, t, p⟩, Or.inr rfl, c⟩
      · exact ⟨x, Or.inl hx, c⟩
    · rintro ⟨x, hx | hx, c⟩
      · exact Or.inr ⟨x, hx, c⟩
      · rw [hx] at c; exact Or.inl c
  · intro e
    simp only [add]
    rw [mem_mapAssign_int _ hw.2, hm e]
    simp only [List.mem_append, List.mem_singleton]
    constructor
    · rintro (c | ⟨⟨x, hx, c⟩, _⟩)
      · exact ⟨⟨u, t, p⟩, Or.inr rfl, c⟩
      · exact ⟨x, Or.inl hx, c⟩
    · rintro ⟨x, hx | hx, c⟩
      · refine Or.inr ⟨⟨x, hx, c⟩, ?_⟩
        rw [c]; exact hfresh x hx
      · rw [hx] at c; exact Or.inl c

theorem represents_construct (tasks : List (Int × Int × Int))
    (hd : (tasks.map (fun x => x.2.1)).Nodup) :
    Represents (construct tasks) (tasks.map toTask) := by
  induction tasks using List.reverseRecOn with
  | nil => exact represents_empty
  | append_singleton l x ih =>
    rw [List.map_append, List.nodup_append] at hd
    obtain ⟨hl, _, hdis⟩ := hd
    have hc : construct (l ++ [x]) = add (construct l) x.1 x.2.1 x.2.2 := by
      simp [construct, List.foldl_append]
    rw [hc, List.map_append]
    refine represents_add_fresh (ih hl) _ _ _ ?_
    intro y hy heq
    obtain ⟨z, hz, rfl⟩ := List.mem_map.mp hy
    refine hdis (List.mem_map.mpr ⟨z, hz, rfl⟩) ?_
    simp only [List.map_cons, List.map_nil, List.mem_singleton]
    exact heq

theorem ids_toTask (tasks : List (Int × Int × Int)) :
    (tasks.map toTask).map Task.taskId = tasks.map (fun x => x.2.1) := by
  rw [List.map_map]
  rfl

theorem represents_edit {s : Store} {ts : List Task} (h : Represents s ts)
    (hd : (ts.map Task.taskId).Nodup) (t p : Int) :
    Represents (edit s t p) (reprioritise t p ts) := by
  obtain ⟨hw, hr, hm⟩ := h
  have hinj := List.inj_on_of_nodup_map hd
  cases hfind : mapFind intLt s.taskMap t with
  | none =>
    rw [edit_of_none p hfind]
    have hno : ∀ x ∈ ts, x.taskId ≠ t := by
      intro x hx c
      have := mapFind_none.mp hfind (x.taskId, x) ((hm _).mpr ⟨x, hx, rfl⟩)
      rw [keyEquiv_intLt_false] at this
      exact this c
    have : reprioritise t p ts = ts := by
      unfold reprioritise
      conv_rhs => rw [← List.map_id ts]
      apply List.map_congr_left
      intro x hx
      simp [hno x hx]
    rw [this]
    exact ⟨hw, hr, hm⟩
  | some it =>
    rw [edit_of_some p hfind]
    have hit := mapFind_some hfind
    obtain ⟨x0, hx0, hx0e⟩ := (hm it).mp hit.1
    have hit1 : it.1 = t := ((keyEquiv_intLt _ _).mp hit.2).symm
    have hx0t : x0.taskId = t := by rw [← hit1, hx0e]
    have hit2 : it.2 = x0 := by rw [hx0e]
    rw [hit2]
    have hse := sorted_mapErase Task.lt s.sortedTasks x0 hw.1
    refine ⟨⟨sorted_mapAssign strictWeak_taskLt _ hse _ _,
      sorted_mapAssign strictWeak_intLt _ hw.2 _ _⟩, ?_, ?_⟩
    · intro e
      simp only
      have hf : ∀ f ∈ mapErase Task.lt s.sortedTasks x0,
          keyEquiv Task.lt { x0 with priority := p } f.1 = false := by
        intro f hf
        rw [mem_mapErase] at hf
        obtain ⟨x, hx, rfl⟩ := (hr f).mp hf.1
        rw [keyEquiv_taskLt_false]
        intro c
        have : x0 = x := hinj hx0 hx c.2
        rw [this, keyEquiv_self strictWeak_taskLt] at hf
        cases hf.2
      rw [mem_mapAssign_fresh Task.lt _ _ _ hf, mem_mapErase, hr e]
      simp only [reprioritise, List.mem_map]
      constructor
      · rintro (c | ⟨⟨x, hx, c⟩, hne⟩)
        · exact ⟨_, ⟨x0, hx0, rfl⟩, by rw [c, if_pos hx0t]⟩
        · refine ⟨_, ⟨x, hx, rfl⟩, ?_⟩
          have hxt : x.taskId ≠ t := by
            intro hc
            have : x0 = x := hinj hx0 hx (hx0t.trans hc.symm)
            rw [c, this, keyEquiv_self strictWeak_taskLt] at hne
            cases hne
          rw [if_neg hxt]; exact c
      · rintro ⟨y, ⟨x, hx, rfl⟩, c⟩
        by_cases hxt : x.taskId = t
        · have : x0 = x := hinj hx0 hx (hx0t.trans hxt.symm)
          rw [if_pos hxt, ← this] at c
          exact Or.inl c
        · rw [if_neg hxt] at c
          refine Or.inr ⟨⟨x, hx, c⟩, ?_⟩
          rw [c, keyEquiv_taskLt_false]
          intro hc
          exact hxt (hc.2.symm.trans hx0t)
    · intro e
      simp only
      rw [mem_mapAssign_int _ hw.2, hm e]
      simp only [reprioritise, List.mem_map]
      constructor
      · rintro (c | ⟨⟨x, hx, c⟩, hne⟩)
        · refine ⟨_, ⟨x0, hx0, rfl⟩, ?_⟩
          rw [c, if_pos hx0t]
          simp only [hx0t]
        · refine ⟨_, ⟨x, hx, rfl⟩, ?_⟩
          have hxt : x.taskId ≠ t := by rw [c] at hne; exact hne
          rw [if_neg hxt]; exact c
      · rintro ⟨y, ⟨x, hx, rfl⟩, c⟩
        by_cases hxt : x.taskId = t
        · have : x0 = x := hinj hx0 hx (hx0t.trans hxt.symm)
          rw [if_pos hxt, ← this] at c
          refine Or.inl ?_
          rw [c]
          exact Prod.ext hx0t rfl
        · rw [if_neg hxt] at c
          refine Or.inr ⟨⟨x, hx, c⟩, ?_⟩
          rw [c]; exact hxt

/-! ## Extraction -/

theorem execTopN_all : ∀ (n : Nat) (s : Store), s.sortedTasks.length = n →
    (execTopN n s).1 = s.sortedTasks.map (fun e => e.1.userId) ∧
      (execTopN n s).2.sortedTasks = [] := by
  intro n
  induction n with
  | zero =>
    intro s hn
    have : s.sortedTasks = [] := List.length_eq_zero.mp hn
    simp [execTopN, this]
  | succ n ih =>
    intro s hn
    cases hs : s.sortedTasks with
    | nil => rw [hs] at hn; cases hn
    | cons x rest =>
      obtain ⟨top, v⟩ := x
      rw [hs] at hn
      have hlen : rest.length = n := by simpa using hn
      have := ih { sortedTasks := rest, taskMap := mapErase intLt s.taskMap top.taskId } hlen
      simp only [execTopN, execTop_of_cons hs, List.map_cons]
      exact ⟨by rw [this.1], this.2⟩

theorem ranksBefore_asymm (a b : Task) (h : ranksBefore a b) : ¬ ranksBefore b a := by
  unfold ranksBefore at *
  omega

theorem strictlyOrdered_of_lt {a b : Task} (h : Task.lt a b = true) : strictlyOrdered a b := by
  refine Or.inl ⟨h, ?_⟩
  rw [taskLt_false_iff]
  exact ranksBefore_asymm a b ((taskLt_iff a b).mp h)

theorem strictlyOrdered_symm {a b : Task} (h : strictlyOrdered a b) : strictlyOrdered b a := by
  rcases h with h | h
  · exact Or.inr ⟨h.2, h.1⟩
  · exact Or.inl ⟨h.2, h.1⟩

theorem sorted_keys_pairwise {m : List (Task × Int)} (h : Sorted Task.lt m) :
    (m.map Prod.fst).Pairwise ranksBefore := by
  rw [List.pairwise_map]
  exact List.Pairwise.imp (fun {a b} hab => (taskLt_iff a.1 b.1).mp hab) h

theorem keys_perm_of_represents {s : Store} {ts : List Task} (h : Represents s ts)
    (hd : (ts.map Task.taskId).Nodup) : (s.sortedTasks.map Prod.fst).Perm ts := by
  obtain ⟨hw, hr, _⟩ := h
  have hk := sorted_keys_pairwise hw.1
  have hkn : (s.sortedTasks.map Prod.fst).Nodup :=
    List.Pairwise.imp
      (fun {a b} hab (hc : a = b) => by subst hc; exact ranksBefore_asymm a a hab hab) hk
  refine (List.perm_ext_iff_of_nodup hkn (List.Nodup.of_map _ hd)).mpr ?_
  intro a
  rw [List.mem_map]
  constructor
  · rintro ⟨e, he, rfl⟩
    obtain ⟨x, hx, rfl⟩ := (hr e).mp he
    exact hx
  · intro ha
    exact ⟨(a, a.userId), (hr _).mpr ⟨a, ha, rfl⟩, rfl⟩

/-! ## The claims -/

/-- C1 (index consistency), evaluated on the call sequence `add(1,5,10)`,
`add(2,5,20)` after constructing from the empty list: `add` does not erase the
rank-index entry of the record it overwrites, so the rank index holds two entries
for task id 5 while the identifier index holds one; after the next `execTop` the
rank index still holds task id 5 and the identifier index holds no task id at all. -/
theorem C1_index_consistency_broken_by_overwriting_add :
    rankIds (run (construct []) [Op.add 1 5 10, Op.add 2 5 20]) = [5, 5] ∧
    mapIds (run (construct []) [Op.add 1 5 10, Op.add 2 5 20]) = [5] ∧
    (run (construct []) [Op.add 1 5 10, Op.add 2 5 20]).sortedTasks.length = 2 ∧
    (run (construct []) [Op.add 1 5 10, Op.add 2 5 20]).taskMap.length = 1 ∧
    rankIds (run (construct []) [Op.add 1 5 10, Op.add 2 5 20, Op.execTop]) = [5] ∧
    mapIds (run (construct []) [Op.add 1 5 10, Op.add 2 5 20, Op.execTop]) = [] := by
  decide

/-- C2 (execTop on a non-empty store), evaluated on the reachable store built
from `(1,5,10),(2,5,20)`: `execTop` returns 2 and erases task id 5 from the
identifier index, but task id 5 is still present in the rank index afterwards
(the entry left behind by the overwriting `add`), and a further `execTop`
returns its owner 1. -/
theorem C2_execTop_leaves_taskId_in_rank_index :
    (construct [(1, 5, 10), (2, 5, 20)]).sortedTasks ≠ [] ∧
    (execTop (construct [(1, 5, 10), (2, 5, 20)])).1 = 2 ∧
    rankIds (execTop (construct [(1, 5, 10), (2, 5, 20)])).2 = [5] ∧
    mapIds (execTop (construct [(1, 5, 10), (2, 5, 20)])).2 = [] ∧
    (execTop (execTop (construct [(1, 5, 10), (2, 5, 20)])).2).1 = 1 := by
  decide

/-- C3 (overwrite semantics of add), evaluated on the empty store:
after `add(1,5,10)` then `add(2,5,20)` the rank index holds two entries for task
id 5, the new one and the old record `(1,5,10)`, while the identifier index holds
the single record `(2,5,20)`; and after `add(1,5,10)` then `add(2,5,10)` the single
rank-index entry keeps the old key, whose userId is 1, so `execTop` returns 1. -/
theorem C3_add_keeps_old_rank_entry :
    (add (add Store.empty 1 5 10) 2 5 20).sortedTasks
      = [(⟨2, 5, 20⟩, 2), (⟨1, 5, 10⟩, 1)] ∧
    (add (add Store.empty 1 5 10) 2 5 20).taskMap = [(5, ⟨2, 5, 20⟩)] ∧
    (add (add Store.empty 1 5 10) 2 5 10).sortedTasks = [(⟨1, 5, 10⟩, 2)] ∧
    (add (add Store.empty 1 5 10) 2 5 10).taskMap = [(5, ⟨2, 5, 10⟩)] ∧
    (execTop (add (add Store.empty 1 5 10) 2 5 10)).1 = 1 := by
  decide

/-- C4 (edit preserves identity), evaluated on the reachable store built from
`(1,5,10),(2,5,20)`: task id 5 is present with userId 2; after `edit(5,10)` the
identifier index holds `(2,5,10)` but the rank-index entry for task id 5 is keyed
by the old record `(1,5,10)`, whose userId is 1, and `execTop` returns 1. -/
theorem C4_edit_lands_on_stale_rank_key :
    (construct [(1, 5, 10), (2, 5, 20)]).taskMap = [(5, ⟨2, 5, 20⟩)] ∧
    (edit (construct [(1, 5, 10), (2, 5, 20)]) 5 10).taskMap = [(5, ⟨2, 5, 10⟩)] ∧
    (edit (construct [(1, 5, 10), (2, 5, 20)]) 5 10).sortedTasks = [(⟨1, 5, 10⟩, 2)] ∧
    (execTop (edit (construct [(1, 5, 10), (2, 5, 20)]) 5 10)).1 = 1 := by
  decide

/-- C5 (rmv of a present task), evaluated on the reachable store built from
`(1,5,10),(2,5,20)`: task id 5 is present; after `rmv(5)` the identifier index is
empty but the rank index still holds the entry `(1,5,10)` for task id 5, and a
later `execTop` returns its owner 1. -/
theorem C5_rmv_leaves_stale_rank_entry :
    mapIds (construct [(1, 5, 10), (2, 5, 20)]) = [5] ∧
    (rmv (construct [(1, 5, 10), (2, 5, 20)]) 5).taskMap = [] ∧
    (rmv (construct [(1, 5, 10), (2, 5, 20)]) 5).sortedTasks = [(⟨1, 5, 10⟩, 1)] ∧
    (execTop (rmv (construct [(1, 5, 10), (2, 5, 20)]) 5)).1 = 1 := by
  decide

/-- C6: for every store and every task id `t` that is not a key of the
identifier index, `edit(t, p)` for every `p` and `rmv(t)` return the store
unchanged, rank index and identifier index alike. -/
theorem C6_unknown_id_is_noop (s : Store) (t : Int) (h : t ∉ mapIds s) :
    (∀ p : Int, edit s t p = s) ∧ rmv s t = s := by
  have hnone : mapFind intLt s.taskMap t = none := by
    rw [mapFind_none]
    intro e he
    rw [keyEquiv_intLt_false]
    intro c
    exact h (List.mem_map.mpr ⟨e, he, c⟩)
  exact ⟨fun p => edit_of_none p hnone, rmv_of_none hnone⟩

/-- Witness for C6: task id 7 is unknown to the store built from `(1,101,10)`. -/
theorem C6_unknown_id_is_noop_witness :
    7 ∉ mapIds (construct [(1, 101, 10)]) ∧
    ((∀ p : Int, edit (construct [(1, 101, 10)]) 7 p = construct [(1, 101, 10)]) ∧
      rmv (construct [(1, 101, 10)]) 7 = construct [(1, 101, 10)]) :=
  ⟨by decide, C6_unknown_id_is_noop (construct [(1, 101, 10)]) 7 (by decide)⟩

/-- C7: on every store whose rank index is empty, `execTop` returns the sentinel
`-1` and leaves the store unchanged, the rank index being empty afterwards; when
the store is reachable (in particular when it is constructed from the empty
list) the identifier index is empty as well. -/
theorem C7_empty_store_sentinel (s : Store) (he : s.sortedTasks = []) :
    execTop s = (-1, s) ∧ (execTop s).2.sortedTasks = [] ∧
      (Reachable s → (execTop s).2.taskMap = []) := by
  have hx := execTop_of_nil he
  refine ⟨hx, by rw [hx]; exact he, ?_⟩
  intro hr
  rw [hx]
  apply List.eq_nil_iff_forall_not_mem.mpr
  intro e hmem
  obtain ⟨_, f, hf, _⟩ := (inv_of_reachable hr).2 e hmem
  rw [he] at hf
  cases hf

/-- Witness for C7: the store constructed from the empty task list. -/
theorem C7_empty_store_sentinel_witness :
    (construct []).sortedTasks = [] ∧ Reachable (construct []) ∧
    execTop (construct []) = (-1, construct []) ∧
    (execTop (construct [])).2.sortedTasks = [] ∧
    (execTop (construct [])).2.taskMap = [] :=
  have h := C7_empty_store_sentinel (construct []) rfl
  have hr : Reachable (construct []) := ⟨[], [], rfl⟩
  ⟨rfl, hr, h.1, h.2.1, h.2.2 hr⟩

/-- C8: `A < B` holds exactly when `A.priority > B.priority`, or the priorities
are equal and `A.taskId > B.taskId`; the relation is irreflexive and transitive;
for every two distinct tasks, that is tasks with different task ids, exactly one
ranks strictly before the other, so no two distinct tasks compare equal; in
particular this holds for every pair of tasks present in a store at the same
time, whichever index holds them.  Moreover two records with one task id are
strictly ordered as soon as their priorities differ and compare equal otherwise,
and in every reachable store any two different entries of the rank index, and any
two different entries of the identifier index, are strictly ordered. -/
theorem C8_strict_total_order :
    (∀ a b : Task, Task.lt a b = true ↔
      (a.priority > b.priority ∨ (a.priority = b.priority ∧ a.taskId > b.taskId))) ∧
    (∀ a : Task, Task.lt a a = false) ∧
    (∀ a b c : Task, Task.lt a b = true → Task.lt b c = true → Task.lt a c = true) ∧
    (∀ a b : Task, a.taskId ≠ b.taskId → strictlyOrdered a b) ∧
    (∀ (s : Store) (a b : Task), holdsTask s a → holdsTask s b → a.taskId ≠ b.taskId →
      strictlyOrdered a b) ∧
    (∀ a b : Task, (a.taskId ≠ b.taskId ∨ a.priority ≠ b.priority) → strictlyOrdered a b) ∧
    (∀ a b : Task, a.taskId = b.taskId → a.priority = b.priority →
      Task.lt a b = false ∧ Task.lt b a = false) ∧
    (∀ s : Store, Reachable s →
      (∀ e ∈ s.sortedTasks, ∀ f ∈ s.sortedTasks, e ≠ f → strictlyOrdered e.1 f.1) ∧
      (∀ e ∈ s.taskMap, ∀ f ∈ s.taskMap, e ≠ f → strictlyOrdered e.2 f.2)) := by
  have hdist : ∀ a b : Task, (a.taskId ≠ b.taskId ∨ a.priority ≠ b.priority) →
      strictlyOrdered a b := by
    intro a b hne
    unfold strictlyOrdered
    simp only [taskLt_iff, taskLt_false_iff, ranksBefore]
    omega
  refine ⟨fun a b => taskLt_iff a b, strictWeak_taskLt.irrefl, strictWeak_taskLt.trans,
    fun a b h => hdist a b (Or.inl h), fun _ a b _ _ h => hdist a b (Or.inl h), hdist,
    ?_, ?_⟩
  · intro a b h1 h2
    simp only [taskLt_false_iff, ranksBefore]
    omega
  · intro s hr
    obtain ⟨hw, hl⟩ := inv_of_reachable hr
    constructor
    · have hp : s.sortedTasks.Pairwise (fun e f => strictlyOrdered e.1 f.1) :=
        List.Pairwise.imp (fun {a b} hab => strictlyOrdered_of_lt hab) hw.1
      intro e he f hf hne
      exact List.Pairwise.forall (R := fun a b : Task × Int => strictlyOrdered a.1 b.1)
        (fun a b hab => strictlyOrdered_symm hab) hp he hf hne
    · have hp : s.taskMap.Pairwise (fun e f => e.1 ≠ f.1) :=
        List.Pairwise.imp
          (fun {a b} hab (hc : a.1 = b.1) => by
            rw [hc, strictWeak_intLt.irrefl] at hab; cases hab) hw.2
      intro e he f hf hne
      have hk : e.1 ≠ f.1 :=
        List.Pairwise.forall (R := fun a b : Int × Task => a.1 ≠ b.1)
          (fun a b hab => Ne.symm hab) hp he hf hne
      exact hdist e.2 f.2 (Or.inl (by rw [(hl e he).1, (hl f hf).1]; exact hk))

/-- Witness for C8: the tasks `(1,101,10)` and `(2,102,20)` have different task
ids, are both present in the store built from them, and the second ranks
strictly before the first. -/
theorem C8_strict_total_order_witness :
    (⟨1, 101, 10⟩ : Task).taskId ≠ (⟨2, 102, 20⟩ : Task).taskId ∧
    holdsTask (construct [(1, 101, 10), (2, 102, 20)]) ⟨1, 101, 10⟩ ∧
    holdsTask (construct [(1, 101, 10), (2, 102, 20)]) ⟨2, 102, 20⟩ ∧
    strictlyOrdered (⟨1, 101, 10⟩ : Task) (⟨2, 102, 20⟩ : Task) ∧
    Task.lt ⟨2, 102, 20⟩ ⟨1, 101, 10⟩ = true :=
  ⟨by decide, by decide, by decide,
    C8_strict_total_order.2.2.2.2.1 (construct [(1, 101, 10), (2, 102, 20)])
      ⟨1, 101, 10⟩ ⟨2, 102, 20⟩ (by decide) (by decide) (by decide),
    by decide⟩

/-- C9: for every list of triples with pairwise distinct task ids, a sorted
arrangement of its tasks (priority descending, then task id descending) exists,
and for every such arrangement, constructing the store and calling `execTop` once
per task returns the userIds of the tasks in exactly that order; the call after
those returns `-1`. -/
theorem C9_extraction_order (tasks : List (Int × Int × Int))
    (hd : (tasks.map (fun x => x.2.1)).Nodup) :
    (∃ sorted : List Task, sorted.Perm (tasks.map toTask) ∧ sorted.Pairwise ranksBefore) ∧
    (∀ sorted : List Task, sorted.Perm (tasks.map toTask) → sorted.Pairwise ranksBefore →
      (execTopN tasks.length (construct tasks)).1 = sorted.map Task.userId) ∧
    (execTop (execTopN tasks.length (construct tasks)).2).1 = -1 := by
  have hrep := represents_construct tasks hd
  have hd2 : ((tasks.map toTask).map Task.taskId).Nodup := by rw [ids_toTask]; exact hd
  have hperm := keys_perm_of_represents hrep hd2
  have hsorted := sorted_keys_pairwise hrep.1.1
  have hlen : (construct tasks).sortedTasks.length = tasks.length := by
    have := hperm.length_eq
    simpa using this
  have hall := execTopN_all tasks.length (construct tasks) hlen
  refine ⟨⟨_, hperm, hsorted⟩, ?_, ?_⟩
  · intro sorted hp hs
    haveI : IsAntisymm Task ranksBefore :=
      ⟨fun a b hab hba => absurd hba (ranksBefore_asymm a b hab)⟩
    have heq : sorted = (construct tasks).sortedTasks.map Prod.fst :=
      List.eq_of_perm_of_sorted (hp.trans hperm.symm) hs hsorted
    rw [hall.1, heq, List.map_map]
    rfl
  · rw [execTop_of_nil hall.2]

/-- Witness for C9: `(1,101,10),(2,102,20),(3,103,15)` yields 2, then 3, then 1,
and the fourth call returns `-1`. -/
theorem C9_extraction_order_witness :
    ([(1, 101, 10), (2, 102, 20), (3, 103, 15)].map
      (fun x : Int × Int × Int => x.2.1)).Nodup ∧
    (execTopN 3 (construct [(1, 101, 10), (2, 102, 20), (3, 103, 15)])).1 = [2, 3, 1] ∧
    (execTop (execTopN 3 (construct [(1, 101, 10), (2, 102, 20), (3, 103, 15)])).2).1
      = -1 :=
  have h := C9_extraction_order [(1, 101, 10), (2, 102, 20), (3, 103, 15)] (by decide)
  ⟨by decide,
    h.2.1 [⟨2, 102, 20⟩, ⟨3, 103, 15⟩, ⟨1, 101, 10⟩] (by decide) (by decide), h.2.2⟩

/-- C10: for every store constructed from triples with pairwise distinct task
ids, every task id `t` among them and every new priority `p`, the `execTop` call
that follows `edit(t, p)` returns the userId of the task that ranks before every
other task once the priority of `t` is taken to be `p` and all other tasks are as
before. -/
theorem C10_edit_reorders (tasks : List (Int × Int × Int)) (t p : Int)
    (hd : (tasks.map (fun x => x.2.1)).Nodup) (ht : t ∈ tasks.map (fun x => x.2.1)) :
    ∃ top ∈ reprioritise t p (tasks.map toTask),
      (∀ x ∈ reprioritise t p (tasks.map toTask), x ≠ top → ranksBefore top x) ∧
      (execTop (edit (construct tasks) t p)).1 = top.userId := by
  have hd2 : ((tasks.map toTask).map Task.taskId).Nodup := by rw [ids_toTask]; exact hd
  obtain ⟨hw, hr, _⟩ := represents_edit (represents_construct tasks hd) hd2 t p
  have hne : ∃ y, y ∈ reprioritise t p (tasks.map toTask) := by
    obtain ⟨x, hx, _⟩ := List.mem_map.mp ht
    exact ⟨_, List.mem_map.mpr ⟨toTask x, List.mem_map.mpr ⟨x, hx, rfl⟩, rfl⟩⟩
  cases hs : (edit (construct tasks) t p).sortedTasks with
  | nil =>
    obtain ⟨y, hy⟩ := hne
    have := (hr (y, y.userId)).mpr ⟨y, hy, rfl⟩
    rw [hs] at this
    cases this
  | cons e rest =>
    obtain ⟨top, v⟩ := e
    have hsorted := hw.1
    unfold Sorted at hsorted
    rw [hs] at hsorted
    have hhead := (List.pairwise_cons.mp hsorted).1
    have htop : top ∈ reprioritise t p (tasks.map toTask) := by
      obtain ⟨x, hx, hxe⟩ := (hr (top, v)).mp (by rw [hs]; exact List.mem_cons_self _ _)
      have : top = x := congrArg Prod.fst hxe
      rw [this]; exact hx
    refine ⟨top, htop, ?_, by rw [execTop_of_cons hs]⟩
    intro x hx hxne
    have hmem := (hr (x, x.userId)).mpr ⟨x, hx, rfl⟩
    rw [hs] at hmem
    rcases List.mem_cons.mp hmem with c | c
    · exact absurd (congrArg Prod.fst c) hxne
    · exact (taskLt_iff top x).mp (hhead _ c)

/-- Witness for C10: on `(1,101,10),(2,102,20),(3,103,15)`, after `edit(102, 8)`
the next `execTop` returns 3. -/
theorem C10_edit_reorders_witness :
    (execTop (edit (construct [(1, 101, 10), (2, 102, 20), (3, 103, 15)]) 102 8)).1 = 3 ∧
    ∃ top ∈ reprioritise 102 8 ([(1, 101, 10), (2, 102, 20), (3, 103, 15)].map toTask),
      (∀ x ∈ reprioritise 102 8 ([(1, 101, 10), (2, 102, 20), (3, 103, 15)].map toTask),
        x ≠ top → ranksBefore top x) ∧
      (execTop (edit (construct [(1, 101, 10), (2, 102, 20), (3, 103, 15)]) 102 8)).1
        = top.userId :=
  ⟨by decide,
    C10_edit_reorders [(1, 101, 10), (2, 102, 20), (3, 103, 15)] 102 8 (by decide)
      (by decide)⟩

/-- C11 (cardinality effect of add), evaluated on two reachable stores.  On the
store built from `(1,5,10)`, task id 5 is present and `add(2,5,20)` leaves the
identifier index at one entry but grows the rank index from one entry to two.
On the store built from `(1,5,10),(2,5,20)` after one `execTop`, task id 5 is not
a key of the identifier index and `add(3,5,10)` grows the identifier index from
zero entries to one but leaves the rank index at one entry. -/
theorem C11_add_cardinality_diverges :
    mapIds (construct [(1, 5, 10)]) = [5] ∧
    (construct [(1, 5, 10)]).sortedTasks.length = 1 ∧
    (construct [(1, 5, 10)]).taskMap.length = 1 ∧
    (add (construct [(1, 5, 10)]) 2 5 20).sortedTasks.length = 2 ∧
    (add (construct [(1, 5, 10)]) 2 5 20).taskMap.length = 1 ∧
    mapIds (run (construct [(1, 5, 10), (2, 5, 20)]) [Op.execTop]) = [] ∧
    (run (construct [(1, 5, 10), (2, 5, 20)]) [Op.execTop]).sortedTasks.length = 1 ∧
    (add (run (construct [(1, 5, 10), (2, 5, 20)]) [Op.execTop]) 3 5 10).sortedTasks.length
      = 1 ∧
    (add (run (construct [(1, 5, 10), (2, 5, 20)]) [Op.execTop]) 3 5 10).taskMap.length
      = 1 := by
  decide

/-- C12 (construct is last-write-wins): the constructed store is always the
result of the `add` calls made in order on the empty store; evaluated on
`(1,5,10),(2,5,20)`, the identifier index holds the single record `(2,5,20)` of
the last triple, but the rank index holds two entries for task id 5, the last
triple and the earlier `(1,5,10)`. -/
theorem C12_construct_keeps_earlier_rank_entries :
    (∀ tasks : List (Int × Int × Int),
      construct tasks = run Store.empty (tasks.map (fun x => Op.add x.1 x.2.1 x.2.2))) ∧
    (construct [(1, 5, 10), (2, 5, 20)]).taskMap = [(5, ⟨2, 5, 20⟩)] ∧
    (construct [(1, 5, 10), (2, 5, 20)]).sortedTasks
      = [(⟨2, 5, 20⟩, 2), (⟨1, 5, 10⟩, 1)] ∧
    rankIds (construct [(1, 5, 10), (2, 5, 20)]) = [5, 5] :=
  ⟨construct_eq_run, by decide, by decide, by decide⟩

/-- C13: for every store and every task id `t`, `rmv(t)` performed twice leaves
the store as `rmv(t)` performed once does; and when `t` is not a key of the
identifier index both calls leave the store unchanged. -/
theorem C13_rmv_idempotent (s : Store) (t : Int) :
    rmv (rmv s t) t = rmv s t ∧ (t ∉ mapIds s → rmv s t = s ∧ rmv (rmv s t) t = s) := by
  have hgone : ∀ m : List (Int × Task), mapFind intLt (mapErase intLt m t) t = none := by
    intro m
    rw [mapFind_none]
    intro e he
    exact ((mem_mapErase intLt m t e).mp he).2
  constructor
  · cases hf : mapFind intLt s.taskMap t with
    | none => rw [rmv_of_none hf, rmv_of_none hf]
    | some it =>
      rw [rmv_of_some hf]
      exact rmv_of_none (hgone s.taskMap)
  · intro h
    have hnone : mapFind intLt s.taskMap t = none := by
      rw [mapFind_none]
      intro e he
      rw [keyEquiv_intLt_false]
      intro c
      exact h (List.mem_map.mpr ⟨e, he, c⟩)
    rw [rmv_of_none hnone, rmv_of_none hnone]
    exact ⟨rfl, rfl⟩

/-- Witness for C13: removing the present task id 101 twice, and the unknown
task id 7 twice, on the store built from `(1,101,10),(2,102,20)`. -/
theorem C13_rmv_idempotent_witness :
    rmv (rmv (construct [(1, 101, 10), (2, 102, 20)]) 101) 101
      = rmv (construct [(1, 101, 10), (2, 102, 20)]) 101 ∧
    7 ∉ mapIds (construct [(1, 101, 10), (2, 102, 20)]) ∧
    rmv (construct [(1, 101, 10), (2, 102, 20)]) 7 = construct [(1, 101, 10), (2, 102, 20)] ∧
    rmv (rmv (construct [(1, 101, 10), (2, 102, 20)]) 7) 7
      = construct [(1, 101, 10), (2, 102, 20)] :=
  have h7 := (C13_rmv_idempotent (construct [(1, 101, 10), (2, 102, 20)]) 7).2 (by decide)
  ⟨(C13_rmv_idempotent (construct [(1, 101, 10), (2, 102, 20)]) 101).1, by decide,
    h7.1, h7.2⟩

/-- C14: the reference trace of `main`.  Constructing from
`(1,101,10),(2,102,20),(3,103,15)` and calling `add(4,104,5)`, `edit(102,8)`,
`execTop`, `rmv(101)`, `add(5,105,15)`, `execTop` makes the first `execTop`
return 3 and the second return 5, and leaves exactly the tasks 102 (priority 8)
and 104 (priority 5) in both indices. -/
theorem C14_reference_trace :
    results (construct [(1, 101, 10), (2, 102, 20), (3, 103, 15)])
        [Op.add 4 104 5, Op.edit 102 8, Op.execTop, Op.rmv 101, Op.add 5 105 15, Op.execTop]
      = [none, none, some 3, none, none, some 5] ∧
    (run (construct [(1, 101, 10), (2, 102, 20), (3, 103, 15)])
        [Op.add 4 104 5, Op.edit 102 8, Op.execTop, Op.rmv 101, Op.add 5 105 15,
          Op.execTop]).sortedTasks
      = [(⟨2, 102, 8⟩, 2), (⟨4, 104, 5⟩, 4)] ∧
    (run (construct [(1, 101, 10), (2, 102, 20), (3, 103, 15)])
        [Op.add 4 104 5, Op.edit 102 8, Op.execTop, Op.rmv 101, Op.add 5 105 15,
          Op.execTop]).taskMap
      = [(102, ⟨2, 102, 8⟩), (104, ⟨4, 104, 5⟩)] := by
  decide

/-- C16 (returned owner is the current owner), evaluated on the reachable store
after `add(1,5,10)`, `add(2,5,10)`: task id 5 is a key of the identifier index,
recorded with userId 2, and the rank-index entry for it is mapped to 2, but its
key still carries userId 1, and `execTop` removes that task and returns 1. -/
theorem C16_execTop_returns_overwritten_owner :
    (run (construct []) [Op.add 1 5 10, Op.add 2 5 10]).taskMap = [(5, ⟨2, 5, 10⟩)] ∧
    (run (construct []) [Op.add 1 5 10, Op.add 2 5 10]).sortedTasks = [(⟨1, 5, 10⟩, 2)] ∧
    (execTop (run (construct []) [Op.add 1 5 10, Op.add 2 5 10])).1 = 1 ∧
    (execTop (run (construct []) [Op.add 1 5 10, Op.add 2 5 10])).2 = ⟨[], []⟩ := by
  decide

/-- C17: in every reachable store, adds that reuse a present task id included,
every record of the identifier index has a rank-index entry whose key has the same
task id and the same priority; hence an empty rank index implies an empty
identifier index, and while the identifier index holds a task `execTop` finds a
top entry and returns its userId instead of taking the empty branch. -/
theorem C17_no_task_lost_from_rank_index (s : Store) (h : Reachable s) :
    (∀ e ∈ s.taskMap, ∃ f ∈ s.sortedTasks,
      f.1.taskId = e.2.taskId ∧ f.1.priority = e.2.priority) ∧
    (s.sortedTasks = [] → s.taskMap = []) ∧
    (s.taskMap ≠ [] → ∃ top v rest, s.sortedTasks = (top, v) :: rest ∧
      (execTop s).1 = top.userId) := by
  have hl := (inv_of_reachable h).2
  have h1 : ∀ e ∈ s.taskMap, ∃ f ∈ s.sortedTasks,
      f.1.taskId = e.2.taskId ∧ f.1.priority = e.2.priority := by
    intro e he
    obtain ⟨_, f, hf, hfe⟩ := hl e he
    have := (keyEquiv_taskLt _ _).mp hfe
    exact ⟨f, hf, this.2.symm, this.1.symm⟩
  have h2 : s.sortedTasks = [] → s.taskMap = [] := by
    intro hnil
    apply List.eq_nil_iff_forall_not_mem.mpr
    intro e he
    obtain ⟨f, hf, _⟩ := h1 e he
    rw [hnil] at hf
    cases hf
  refine ⟨h1, h2, ?_⟩
  intro hne
  cases hs : s.sortedTasks with
  | nil => exact absurd (h2 hs) hne
  | cons x rest =>
    obtain ⟨top, v⟩ := x
    exact ⟨top, v, rest, rfl, by rw [execTop_of_cons hs]⟩

/-- Witness for C17: the store built from `(1,5,10),(2,5,20)`, where the second
triple reuses the task id of the first. -/
theorem C17_no_task_lost_from_rank_index_witness :
    Reachable (construct [(1, 5, 10), (2, 5, 20)]) ∧
    (construct [(1, 5, 10), (2, 5, 20)]).taskMap ≠ [] ∧
    ∃ top v rest, (construct [(1, 5, 10), (2, 5, 20)]).sortedTasks = (top, v) :: rest ∧
      (execTop (construct [(1, 5, 10), (2, 5, 20)])).1 = top.userId :=
  have hr : Reachable (construct [(1, 5, 10), (2, 5, 20)]) :=
    ⟨[(1, 5, 10), (2, 5, 20)], [], rfl⟩
  ⟨hr, by decide,
    (C17_no_task_lost_from_rank_index (construct [(1, 5, 10), (2, 5, 20)]) hr).2.2
      (by decide)⟩

/-! ## Owners held by the store -/

theorem mem_mapAssign_weak {K V : Type} (lt : K → K → Bool) (m : List (K × V)) (k : K)
    (v : V) (e : K × V) (he : e ∈ mapAssign lt m k v) :
    e = (k, v) ∨ (e.2 = v ∧ ∃ f ∈ m, f.1 = e.1) ∨ e ∈ m := by
  induction m with
  | nil =>
    simp only [mapAssign, List.mem_singleton] at he
    exact Or.inl he
  | cons x rest ih =>
    obtain ⟨k', v'⟩ := x
    simp only [mapAssign] at he
    by_cases c1 : lt k k' = true
    · rw [if_pos c1] at he
      rcases List.mem_cons.mp he with c | c
      · exact Or.inl c
      · exact Or.inr (Or.inr c)
    · by_cases c2 : lt k' k = true
      · rw [if_neg c1, if_pos c2] at he
        rcases List.mem_cons.mp he with c | c
        · exact Or.inr (Or.inr (by rw [c]; exact List.mem_cons_self _ _))
        · rcases ih c with d | ⟨d, f, hf, hfe⟩ | d
          · exact Or.inl d
          · exact Or.inr (Or.inl ⟨d, f, List.mem_cons_of_mem _ hf, hfe⟩)
          · exact Or.inr (Or.inr (List.mem_cons_of_mem _ d))
      · rw [if_neg c1, if_neg c2] at he
        rcases List.mem_cons.mp he with c | c
        · refine Or.inr (Or.inl ⟨by rw [c], (k', v'), List.mem_cons_self _ _, by rw [c]⟩)
        · exact Or.inr (Or.inr (List.mem_cons_of_mem _ c))

theorem owners_empty : OwnersNonneg Store.empty := by
  constructor <;> intro e he <;> simp [Store.empty] at he

theorem owners_add {s : Store} (h : OwnersNonneg s) (u t p : Int) (hu : 0 ≤ u) :
    OwnersNonneg (add s u t p) := by
  constructor
  · intro e he
    rcases mem_mapAssign_weak _ _ _ _ e he with c | ⟨_, f, hf, hfe⟩ | c
    · rw [c]; exact hu
    · rw [← hfe]; exact h.1 f hf
    · exact h.1 e c
  · intro e he
    rcases mem_mapAssign_weak _ _ _ _ e he with c | ⟨c, _⟩ | c
    · rw [c]; exact hu
    · rw [c]; exact hu
    · exact h.2 e c

theorem owners_edit {s : Store} (h : OwnersNonneg s) (t p : Int) :
    OwnersNonneg (edit s t p) := by
  cases hfind : mapFind intLt s.taskMap t with
  | none => rw [edit_of_none p hfind]; exact h
  | some it =>
    rw [edit_of_some p hfind]
    have hit : 0 ≤ it.2.userId := h.2 it (mapFind_some hfind).1
    constructor
    · intro e he
      rcases mem_mapAssign_weak _ _ _ _ e he with c | ⟨_, f, hf, hfe⟩ | c
      · rw [c]; exact hit
      · rw [← hfe]; exact h.1 f ((mem_mapErase _ _ _ _).mp hf).1
      · exact h.1 e ((mem_mapErase _ _ _ _).mp c).1
    · intro e he
      rcases mem_mapAssign_weak _ _ _ _ e he with c | ⟨c, _⟩ | c
      · rw [c]; exact hit
      · rw [c]; exact hit
      · exact h.2 e c

theorem owners_rmv {s : Store} (h : OwnersNonneg s) (t : Int) :
    OwnersNonneg (rmv s t) := by
  cases hfind : mapFind intLt s.taskMap t with
  | none => rw [rmv_of_none hfind]; exact h
  | some it =>
    rw [rmv_of_some hfind]
    exact ⟨fun e he => h.1 e ((mem_mapErase _ _ _ _).mp he).1,
      fun e he => h.2 e ((mem_mapErase _ _ _ _).mp he).1⟩

theorem owners_execTop {s : Store} (h : OwnersNonneg s) : OwnersNonneg (execTop s).2 := by
  cases hs : s.sortedTasks with
  | nil => rw [execTop_of_nil hs]; exact h
  | cons x rest =>
    obtain ⟨top, v⟩ := x
    rw [execTop_of_cons hs]
    exact ⟨fun e he => h.1 e (by rw [hs]; exact List.mem_cons_of_mem _ he),
      fun e he => h.2 e ((mem_mapErase _ _ _ _).mp he).1⟩

theorem owners_run (ops : List Op) :
    ∀ s : Store, OwnersNonneg s → (∀ op ∈ ops, Op.ownerNonneg op) →
      OwnersNonneg (run s ops) := by
  induction ops with
  | nil => intro s h _; exact h
  | cons op ops ih =>
    intro s h hops
    have hop := hops op (List.mem_cons_self _ _)
    refine ih (step s op) ?_ (fun o ho => hops o (List.mem_cons_of_mem _ ho))
    cases op with
    | add u t p => exact owners_add h u t p hop
    | edit t p => exact owners_edit h t p
    | rmv t => exact owners_rmv h t
    | execTop => exact owners_execTop h

theorem owners_construct (init : List (Int × Int × Int)) (h : ∀ x ∈ init, 0 ≤ x.1) :
    OwnersNonneg (construct init) := by
  rw [construct_eq_run]
  refine owners_run _ _ owners_empty ?_
  intro op hop
  obtain ⟨x, hx, rfl⟩ := List.mem_map.mp hop
  exact h x hx

/-- C18: on every store in which no rank-index key has userId `-1`, `execTop`
returns `-1` exactly when the rank index is empty before the call; and no
rank-index key has userId `-1` in any store reached from a constructor list and
`add` calls whose userIds are all non-negative. -/
theorem C18_sentinel_unambiguous (s : Store)
    (h : ∀ e ∈ s.sortedTasks, e.1.userId ≠ -1) :
    ((execTop s).1 = -1 ↔ s.sortedTasks = []) ∧
    (∀ (init : List (Int × Int × Int)) (ops : List Op), (∀ x ∈ init, 0 ≤ x.1) →
      (∀ op ∈ ops, Op.ownerNonneg op) →
      ∀ e ∈ (run (construct init) ops).sortedTasks, e.1.userId ≠ -1) := by
  constructor
  · cases hs : s.sortedTasks with
    | nil => simp [execTop_of_nil hs]
    | cons x rest =>
      obtain ⟨top, v⟩ := x
      rw [execTop_of_cons hs]
      have := h (top, v) (by rw [hs]; exact List.mem_cons_self _ _)
      simp only [List.cons_ne_nil, iff_false]
      exact this
  · intro init ops hinit hops e he
    have := (owners_run ops _ (owners_construct init hinit) hops).1 e he
    omega

/-- Witness for C18: the store built from `(1,101,10)` holds no owner `-1`; its
`execTop` does not return `-1` and its rank index is not empty. -/
theorem C18_sentinel_unambiguous_witness :
    (∀ e ∈ (construct [(1, 101, 10)]).sortedTasks, e.1.userId ≠ -1) ∧
    ((execTop (construct [(1, 101, 10)])).1 = -1 ↔
      (construct [(1, 101, 10)]).sortedTasks = []) ∧
    (execTop (construct [(1, 101, 10)])).1 = 1 :=
  ⟨by decide, (C18_sentinel_unambiguous (construct [(1, 101, 10)]) (by decide)).1,
    by decide⟩

/-! ## Consistency along call sequences without overwriting adds -/

theorem represents_rmv {s : Store} {ts : List Task} (h : Represents s ts)
    (hd : (ts.map Task.taskId).Nodup) (t : Int) :
    Represents (rmv s t) (ts.filter (fun x => decide (x.taskId ≠ t))) := by
  obtain ⟨hw, hr, hm⟩ := h
  have hinj := List.inj_on_of_nodup_map hd
  cases hfind : mapFind intLt s.taskMap t with
  | none =>
    rw [rmv_of_none hfind]
    have hno : ∀ x ∈ ts, x.taskId ≠ t := by
      intro x hx c
      have := mapFind_none.mp hfind (x.taskId, x) ((hm _).mpr ⟨x, hx, rfl⟩)
      rw [keyEquiv_intLt_false] at this
      exact this c
    have : ts.filter (fun x => decide (x.taskId ≠ t)) = ts :=
      List.filter_eq_self.mpr (fun x hx => by simpa using hno x hx)
    rw [this]
    exact ⟨hw, hr, hm⟩
  | some it =>
    rw [rmv_of_some hfind]
    have hit := mapFind_some hfind
    obtain ⟨x0, hx0, hx0e⟩ := (hm it).mp hit.1
    have hit1 : it.1 = t := ((keyEquiv_intLt _ _).mp hit.2).symm
    have hx0t : x0.taskId = t := by rw [← hit1, hx0e]
    have hit2 : it.2 = x0 := by rw [hx0e]
    rw [hit2]
    refine ⟨⟨sorted_mapErase _ _ _ hw.1, sorted_mapErase _ _ _ hw.2⟩, ?_, ?_⟩
    · intro e
      simp only
      rw [mem_mapErase, hr e]
      simp only [List.mem_filter, decide_eq_true_eq]
      constructor
      · rintro ⟨⟨x, hx, c⟩, hne⟩
        refine ⟨x, ⟨hx, ?_⟩, c⟩
        intro hc
        have : x0 = x := hinj hx0 hx (hx0t.trans hc.symm)
        rw [c, this, keyEquiv_self strictWeak_taskLt] at hne
        cases hne
      · rintro ⟨x, ⟨hx, hxt⟩, c⟩
        refine ⟨⟨x, hx, c⟩, ?_⟩
        rw [c, keyEquiv_taskLt_false]
        intro hc
        exact hxt (hc.2.symm.trans hx0t)
    · intro e
      simp only
      rw [mem_mapErase_int, hm e]
      simp only [List.mem_filter, decide_eq_true_eq]
      constructor
      · rintro ⟨⟨x, hx, c⟩, hne⟩
        exact ⟨x, ⟨hx, by rw [c] at hne; exact hne⟩, c⟩
      · rintro ⟨x, ⟨hx, hxt⟩, c⟩
        exact ⟨⟨x, hx, c⟩, by rw [c]; exact hxt⟩

theorem represents_execTop {s : Store} {ts : List Task} (h : Represents s ts)
    (hd : (ts.map Task.taskId).Nodup) :
    ∃ ts', (ts'.map Task.taskId).Nodup ∧ Represents (execTop s).2 ts' := by
  have hwf := wf_execTop h.1
  obtain ⟨hw, hr, hm⟩ := h
  have hinj := List.inj_on_of_nodup_map hd
  cases hs : s.sortedTasks with
  | nil =>
    rw [execTop_of_nil hs]
    exact ⟨ts, hd, hw, hr, hm⟩
  | cons x rest =>
    obtain ⟨top, v⟩ := x
    rw [execTop_of_cons hs] at hwf ⊢
    have hsorted := hw.1
    unfold Sorted at hsorted
    rw [hs] at hsorted
    have hhead := (List.pairwise_cons.mp hsorted).1
    have htop : top ∈ ts := by
      obtain ⟨x, hx, hxe⟩ := (hr (top, v)).mp (by rw [hs]; exact List.mem_cons_self _ _)
      have : top = x := congrArg Prod.fst hxe
      rw [this]; exact hx
    refine ⟨ts.filter (fun x => decide (x.taskId ≠ top.taskId)),
      List.Nodup.sublist ((List.filter_sublist ts).map Task.taskId) hd, hwf, ?_, ?_⟩
    · intro e
      simp only [List.mem_filter, decide_eq_true_eq]
      constructor
      · intro he
        obtain ⟨x, hx, c⟩ := (hr e).mp (by rw [hs]; exact List.mem_cons_of_mem _ he)
        refine ⟨x, ⟨hx, ?_⟩, c⟩
        intro hc
        have hxt : x = top := hinj hx htop hc
        have hlt := hhead e he
        rw [c, hxt, strictWeak_taskLt.irrefl] at hlt
        cases hlt
      · rintro ⟨x, ⟨hx, hxt⟩, c⟩
        have hmem := (hr e).mpr ⟨x, hx, c⟩
        rw [hs] at hmem
        rcases List.mem_cons.mp hmem with d | d
        · exfalso
          apply hxt
          have : x = top := congrArg Prod.fst (c.symm.trans d)
          rw [this]
        · exact d
    · intro e
      simp only
      rw [mem_mapErase_int, hm e]
      simp only [List.mem_filter, decide_eq_true_eq]
      constructor
      · rintro ⟨⟨x, hx, c⟩, hne⟩
        exact ⟨x, ⟨hx, by rw [c] at hne; exact hne⟩, c⟩
      · rintro ⟨x, ⟨hx, hxt⟩, c⟩
        exact ⟨⟨x, hx, c⟩, by rw [c]; exact hxt⟩

theorem ids_reprioritise (t p : Int) (ts : List Task) :
    (reprioritise t p ts).map Task.taskId = ts.map Task.taskId := by
  unfold reprioritise
  rw [List.map_map]
  apply List.map_congr_left
  intro x _
  simp only [Function.comp]
  split <;> rfl

theorem represents_step {s : Store} {ts : List Task} (h : Represents s ts)
    (hd : (ts.map Task.taskId).Nodup) (op : Op) (hop : addIsFresh s op) :
    ∃ ts', (ts'.map Task.taskId).Nodup ∧ Represents (step s op) ts' := by
  cases op with
  | add u t p =>
    have hfresh : ∀ x ∈ ts, x.taskId ≠ t := by
      intro x hx c
      apply hop
      exact List.mem_map.mpr ⟨(x.taskId, x), (h.2.2 _).mpr ⟨x, hx, rfl⟩, c⟩
    refine ⟨ts ++ [(⟨u, t, p⟩ : Task)], ?_, represents_add_fresh h u t p hfresh⟩
    rw [List.map_append, List.nodup_append]
    refine ⟨hd, by simp, ?_⟩
    intro a ha hb
    simp only [List.map_cons, List.map_nil, List.mem_singleton] at hb
    obtain ⟨x, hx, rfl⟩ := List.mem_map.mp ha
    exact hfresh x hx hb
  | edit t p =>
    exact ⟨reprioritise t p ts, by rw [ids_reprioritise]; exact hd, represents_edit h hd t p⟩
  | rmv t =>
    exact ⟨_, List.Nodup.sublist ((List.filter_sublist ts).map Task.taskId) hd,
      represents_rmv h hd t⟩
  | execTop => exact represents_execTop h hd

theorem represents_run (ops : List Op) :
    ∀ (s : Store) (ts : List Task), Represents s ts → (ts.map Task.taskId).Nodup →
      freshAdds s ops → ∃ ts', (ts'.map Task.taskId).Nodup ∧ Represents (run s ops) ts' := by
  induction ops with
  | nil => intro s ts h hd _; exact ⟨ts, hd, h⟩
  | cons op ops ih =>
    intro s ts h hd hf
    obtain ⟨ts1, hd1, h1⟩ := represents_step h hd op hf.1
    exact ih (step s op) ts1 h1 hd1 hf.2

theorem freshAdds_take (ops : List Op) :
    ∀ (s : Store) (k : Nat), freshAdds s ops → freshAdds s (ops.take k) := by
  induction ops with
  | nil => intro s k h; simpa using h
  | cons op ops ih =>
    intro s k h
    cases k with
    | zero => exact trivial
    | succ k => exact ⟨h.1, ih (step s op) k h.2⟩

theorem consistent_of_represents {s : Store} {ts : List Task} (h : Represents s ts)
    (hd : (ts.map Task.taskId).Nodup) : Consistent s := by
  have hkeys := keys_perm_of_represents h hd
  obtain ⟨hw, hr, hm⟩ := h
  have hkey : ∀ e ∈ s.taskMap, e.2.taskId = e.1 := by
    intro e he
    obtain ⟨x, _, rfl⟩ := (hm e).mp he
    rfl
  have hval : ∀ e ∈ s.sortedTasks, e.2 = e.1.userId := by
    intro e he
    obtain ⟨x, _, rfl⟩ := (hr e).mp he
    rfl
  have hids : (mapIds s).Nodup := by
    unfold mapIds
    rw [List.Nodup, List.pairwise_map]
    exact List.Pairwise.imp
      (fun {a b} hab (hc : a.1 = b.1) => by
        rw [hc, strictWeak_intLt.irrefl] at hab; cases hab) hw.2
  have hrecs : (s.taskMap.map Prod.snd).Perm ts := by
    have hn : (s.taskMap.map Prod.snd).Nodup := by
      have : (s.taskMap.map Prod.snd).map Task.taskId = mapIds s := by
        unfold mapIds
        rw [List.map_map]
        apply List.map_congr_left
        intro e he
        exact hkey e he
      exact List.Nodup.of_map Task.taskId (by rw [this]; exact hids)
    refine (List.perm_ext_iff_of_nodup hn (List.Nodup.of_map _ hd)).mpr ?_
    intro a
    rw [List.mem_map]
    constructor
    · rintro ⟨e, he, rfl⟩
      obtain ⟨x, hx, rfl⟩ := (hm e).mp he
      exact hx
    · intro ha
      exact ⟨(a.taskId, a), (hm _).mpr ⟨a, ha, rfl⟩, rfl⟩
  refine ⟨hkeys.trans hrecs.symm, ?_, hids, hkey, hval⟩
  have : rankIds s = (s.sortedTasks.map Prod.fst).map Task.taskId := by
    unfold rankIds
    rw [List.map_map]
    rfl
  rw [this]
  exact ((hkeys.map Task.taskId).nodup_iff).mpr hd

/-- C15: when the constructor list has pairwise distinct task ids and no `add`
of the call sequence is made with a task id that is a key of the identifier index
at that moment, then after every call (after every initial segment of the
sequence) the keys of the rank index are exactly the records of the identifier
index, one per task id, and every rank-index entry is mapped to the userId of its
key. -/
theorem C15_conditional_consistency (init : List (Int × Int × Int)) (ops : List Op)
    (hd : (init.map (fun x => x.2.1)).Nodup) (hf : freshAdds (construct init) ops)
    (k : Nat) : Consistent (run (construct init) (ops.take k)) := by
  have hd2 : ((init.map toTask).map Task.taskId).Nodup := by rw [ids_toTask]; exact hd
  obtain ⟨ts, hts, hrep⟩ := represents_run (ops.take k) (construct init) (init.map toTask)
    (represents_construct init hd) hd2 (freshAdds_take ops (construct init) k hf)
  exact consistent_of_represents hrep hts

/-- Witness for C15: the call sequence of `main`, whose two `add` calls use the
new task ids 104 and 105. -/
theorem C15_conditional_consistency_witness :
    ([(1, 101, 10), (2, 102, 20), (3, 103, 15)].map
      (fun x : Int × Int × Int => x.2.1)).Nodup ∧
    freshAdds (construct [(1, 101, 10), (2, 102, 20), (3, 103, 15)])
      [Op.add 4 104 5, Op.edit 102 8, Op.execTop, Op.rmv 101, Op.add 5 105 15,
        Op.execTop] ∧
    Consistent (run (construct [(1, 101, 10), (2, 102, 20), (3, 103, 15)])
      ([Op.add 4 104 5, Op.edit 102 8, Op.execTop, Op.rmv 101, Op.add 5 105 15,
        Op.execTop].take 6)) :=
  ⟨by decide, by decide,
    C15_conditional_consistency [(1, 101, 10), (2, 102, 20), (3, 103, 15)]
      [Op.add 4 104 5, Op.edit 102 8, Op.execTop, Op.rmv 101, Op.add 5 105 15, Op.execTop]
      (by decide) (by decide) 6⟩

/-! ## Independence of the constructor from the order of its rows -/

theorem sorted_ext {K V : Type} {lt : K → K → Bool} (h : StrictWeak lt)
    {m₁ m₂ : List (K × V)} (h1 : Sorted lt m₁) (h2 : Sorted lt m₂)
    (hm : ∀ e, e ∈ m₁ ↔ e ∈ m₂) : m₁ = m₂ := by
  have hnd : ∀ m : List (K × V), Sorted lt m → m.Nodup := by
    intro m hs
    exact List.Pairwise.imp
      (fun {a b} hab (hc : a = b) => by
        rw [hc, h.irrefl] at hab; cases hab) hs
  haveI : IsAntisymm (K × V) (fun e f => lt e.1 f.1 = true) :=
    ⟨fun a b hab hba => by
      have := h.trans _ _ _ hab hba
      rw [h.irrefl] at this
      cases this⟩
  exact List.eq_of_perm_of_sorted
    ((List.perm_ext_iff_of_nodup (hnd m₁ h1) (hnd m₂ h2)).mpr hm) h1 h2

theorem represents_unique {s₁ s₂ : Store} {ts₁ ts₂ : List Task} (h1 : Represents s₁ ts₁)
    (h2 : Represents s₂ ts₂) (hm : ∀ x, x ∈ ts₁ ↔ x ∈ ts₂) : s₁ = s₂ := by
  obtain ⟨hw1, hr1, hm1⟩ := h1
  obtain ⟨hw2, hr2, hm2⟩ := h2
  have ha : s₁.sortedTasks = s₂.sortedTasks := by
    refine sorted_ext strictWeak_taskLt hw1.1 hw2.1 ?_
    intro e
    rw [hr1 e, hr2 e]
    constructor
    · rintro ⟨x, hx, c⟩; exact ⟨x, (hm x).mp hx, c⟩
    · rintro ⟨x, hx, c⟩; exact ⟨x, (hm x).mpr hx, c⟩
  have hb : s₁.taskMap = s₂.taskMap := by
    refine sorted_ext strictWeak_intLt hw1.2 hw2.2 ?_
    intro e
    rw [hm1 e, hm2 e]
    constructor
    · rintro ⟨x, hx, c⟩; exact ⟨x, (hm x).mp hx, c⟩
    · rintro ⟨x, hx, c⟩; exact ⟨x, (hm x).mpr hx, c⟩
  cases s₁
  cases s₂
  simp only at ha hb
  rw [ha, hb]

/-- C19: for every list of triples with pairwise distinct task ids and every
permutation of it, the two constructed stores have the same rank index and the
same identifier index, and every subsequent call sequence returns the same
results and leads to the same store from both. -/
theorem C19_construct_order_independent (l₁ l₂ : List (Int × Int × Int))
    (hp : l₁.Perm l₂) (hd : (l₁.map (fun x => x.2.1)).Nodup) :
    (construct l₁).sortedTasks = (construct l₂).sortedTasks ∧
    (construct l₁).taskMap = (construct l₂).taskMap ∧
    ∀ ops : List Op, results (construct l₁) ops = results (construct l₂) ops ∧
      run (construct l₁) ops = run (construct l₂) ops := by
  have hd' : (l₂.map (fun x => x.2.1)).Nodup :=
    ((hp.map (fun x => x.2.1)).nodup_iff).mp hd
  have heq : construct l₁ = construct l₂ := by
    refine represents_unique (represents_construct l₁ hd) (represents_construct l₂ hd') ?_
    intro x
    exact (hp.map toTask).mem_iff
  refine ⟨by rw [heq], by rw [heq], ?_⟩
  intro ops
  rw [heq]
  exact ⟨rfl, rfl⟩

/-- Witness for C19: `(1,101,10),(2,102,20),(3,103,15)` and its reversal. -/
theorem C19_construct_order_independent_witness :
    [((1 : Int), (101 : Int), (10 : Int)), (2, 102, 20), (3, 103, 15)].Perm
      [(3, 103, 15), (2, 102, 20), (1, 101, 10)] ∧
    construct [(1, 101, 10), (2, 102, 20), (3, 103, 15)]
      = construct [(3, 103, 15), (2, 102, 20), (1, 101, 10)] ∧
    results (construct [(1, 101, 10), (2, 102, 20), (3, 103, 15)]) [Op.execTop, Op.execTop]
      = results (construct [(3, 103, 15), (2, 102, 20), (1, 101, 10)])
          [Op.execTop, Op.execTop] :=
  have h := C19_construct_order_independent [(1, 101, 10), (2, 102, 20), (3, 103, 15)]
    [(3, 103, 15), (2, 102, 20), (1, 101, 10)] (by decide) (by decide)
  ⟨by decide, by decide, (h.2.2 [Op.execTop, Op.execTop]).1⟩

end TaskManager
